import Mathlib

/-
Verification of the wood-cutter packing engine (src/wood_cutter.py).

The program is embedded shallowly: Python numbers become rationals (ℚ),
the mutable `Panel` object becomes a record threaded through the
functions that update it, the `while pieces` loop of `optimize_purchase`
becomes a well-founded recursion on the pending-piece list, and the
`ValueError` raised on unpackable inputs becomes the `Except.error`
branch of the result.
-/

namespace WoodCutter

/-- A free rectangle `(x, y, width, height)`, as stored in
`Panel.free_rectangles`. -/
structure Rect where
  x : ℚ
  y : ℚ
  w : ℚ
  h : ℚ
deriving DecidableEq, Repr

/-- One placement `(x, y, w, h, rotated)` recorded in `Panel.placements`:
`w × h` are the placed (post-rotation) dimensions. -/
structure Placement where
  x : ℚ
  y : ℚ
  w : ℚ
  h : ℚ
  rotated : Bool
deriving DecidableEq, Repr

/-- A catalog board type `(board_width, board_height, cost)`. -/
structure BoardType where
  width : ℚ
  height : ℚ
  cost : ℚ
deriving DecidableEq, Repr

/-- A required-piece specification `(piece_width, piece_height, quantity)`. -/
structure PieceReq where
  width : ℚ
  height : ℚ
  qty : ℕ
deriving DecidableEq, Repr

/-- An expanded pending piece `(width, height)`; the Python code keeps these as
pairs and indexes them with `[0]` / `[1]`. -/
abbrev Piece := ℚ × ℚ

/-- One entry `(x, y, w, h, board_number, rotated)` of the global cutting
plan; `board` is the 1-based ordinal of the purchased board. -/
structure PlanItem where
  x : ℚ
  y : ℚ
  w : ℚ
  h : ℚ
  board : ℕ
  rotated : Bool
deriving DecidableEq, Repr

/-- The `Panel` class: one physical board with its free-rectangle list and the
placements committed so far. -/
structure Panel where
  width : ℚ
  height : ℚ
  free_rectangles : List Rect
  placements : List Placement
deriving DecidableEq, Repr

/-- `Panel.__init__`: initially the entire board is a single free rectangle. -/
def Panel.init (width height : ℚ) : Panel :=
  { width := width, height := height
    free_rectangles := [⟨0, 0, width, height⟩]
    placements := [] }

/-- The two split rectangles appended after a piece of size `w × h` is placed
into the free rectangle `f`: the right strip when `f.w - w > 0`, then the
bottom strip (spanning the full original width) when `f.h - h > 0`. -/
def splitFree (f : Rect) (w h : ℚ) : List Rect :=
  (if f.w - w > 0 then [⟨f.x + w, f.y, f.w - w, h⟩] else []) ++
    (if f.h - h > 0 then [⟨f.x, f.y + h, f.w, f.h - h⟩] else [])

/-- The inner `for i, (fx, fy, fw, fh) in enumerate(self.free_rectangles)`
scan: find the first free rectangle with `fw ≥ w and fh ≥ h`; return it
together with the list with that rectangle deleted (`del free_rectangles[i]`),
or `none` if no rectangle fits. -/
def scanPlace (w h : ℚ) : List Rect → Option (Rect × List Rect)
  | [] => none
  | f :: rest =>
    if f.w ≥ w ∧ f.h ≥ h then some (f, rest)
    else
      match scanPlace w h rest with
      | none => none
      | some (g, rest') => some (g, f :: rest')

/-- The body of `try_place` for one orientation `w × h`: on success the
matched rectangle is removed and the split strips are appended at the end of
the free list, and the placement is appended to `placements`. -/
def Panel.placeOrient (p : Panel) (w h : ℚ) (rotated : Bool) :
    Option (Placement × Panel) :=
  match scanPlace w h p.free_rectangles with
  | none => none
  | some (f, remaining) =>
    some (⟨f.x, f.y, w, h, rotated⟩,
      { p with
        placements := p.placements ++ [⟨f.x, f.y, w, h, rotated⟩]
        free_rectangles := remaining ++ splitFree f w h })

/-- `Panel.try_place`: try `for rotated in [False, True]`, unrotated
(`w, h = piece_width, piece_height`) first, rotated
(`w, h = piece_height, piece_width`) second; return the placement of the
first match together with the updated panel, or `(none, p)` with the panel
untouched. -/
def Panel.try_place (p : Panel) (piece_width piece_height : ℚ) :
    Option Placement × Panel :=
  match p.placeOrient piece_width piece_height false with
  | some (pl, p') => (some pl, p')
  | none =>
    match p.placeOrient piece_height piece_width true with
    | some (pl, p') => (some pl, p')
    | none => (none, p)

/-- `required_pieces` expansion: each `(w, h, qty)` contributes `qty` copies
of the piece `(w, h)`, in order. -/
def expandPieces (required_pieces : List PieceReq) : List Piece :=
  required_pieces.flatMap fun r => List.replicate r.qty (r.width, r.height)

/-- `pieces.sort(key=lambda p: p[0] * p[1], reverse=True)`: stable descending
sort by area. -/
def sortPieces (pieces : List Piece) : List Piece :=
  List.insertionSort (fun a b : Piece => a.1 * a.2 ≥ b.1 * b.2) pieces

/-- The per-board simulation loop
`for i, (pw, ph) in enumerate(pieces): pos = panel.try_place(pw, ph)`:
threads the panel through every pending piece and collects the indices
(counted from `i0`) of the pieces that were placed. -/
def simulatePacking (panel : Panel) : List Piece → ℕ → Panel × List ℕ
  | [], _ => (panel, [])
  | q :: rest, i0 =>
    match panel.try_place q.1 q.2 with
    | (some _, panel') =>
      let s := simulatePacking panel' rest (i0 + 1)
      (s.1, i0 :: s.2)
    | (none, panel') => simulatePacking panel' rest (i0 + 1)

/-- Simulate one catalog board type against the current pending list on a
fresh panel (`panel = Panel(board_width, board_height)`). -/
def evalBoard (pieces : List Piece) (b : BoardType) : Panel × List ℕ :=
  simulatePacking (Panel.init b.width b.height) pieces 0

/-- `packed_area = sum(pieces[i][0] * pieces[i][1] for i in packed_indices)`:
the area actually covered, measured with the original (pre-rotation)
dimensions of each packed piece. -/
def packedArea (pieces : List Piece) (idxs : List ℕ) : ℚ :=
  (idxs.map fun i => (pieces.getD i (0, 0)).1 * (pieces.getD i (0, 0)).2).sum

/-- One candidate of the board-type loop: the chosen board type together with
its simulated panel, packed indices and efficiency (`cost / packed_area`). -/
structure Candidate where
  efficiency : ℚ
  board : BoardType
  panel : Panel
  packed : List ℕ
deriving DecidableEq, Repr

/-- Evaluate one catalog entry: `continue` (i.e. `none`) when the board packed
no piece, otherwise the candidate record with its efficiency. -/
def mkCandidate (pieces : List Piece) (b : BoardType) : Option Candidate :=
  let r := evalBoard pieces b
  if r.2.isEmpty then none
  else some ⟨b.cost / packedArea pieces r.2, b, r.1, r.2⟩

/-- The `for board in available_boards` selection loop, carrying the current
best candidate: a new candidate replaces the incumbent exactly when its
efficiency is strictly lower (`efficiency < best_efficiency`). -/
def chooseBestAux (pieces : List Piece) : List BoardType → Option Candidate →
    Option Candidate
  | [], best => best
  | b :: rest, best =>
    match mkCandidate pieces b with
    | none => chooseBestAux pieces rest best
    | some c =>
      match best with
      | none => chooseBestAux pieces rest (some c)
      | some c0 =>
        if c.efficiency < c0.efficiency then chooseBestAux pieces rest (some c)
        else chooseBestAux pieces rest (some c0)

/-- The whole candidate-selection pass of one `while` iteration. -/
def chooseBest (pieces : List Piece) (boards : List BoardType) :
    Option Candidate :=
  chooseBestAux pieces boards none

/-- The candidates that survive step 2 of the selection (packed at least one
piece), in catalog order. -/
def candList (pieces : List Piece) (boards : List BoardType) : List Candidate :=
  boards.filterMap (mkCandidate pieces)

/-- `for i in sorted(best_packed_indices, reverse=True): del pieces[i]`:
delete the packed indices from the pending list, highest index first. -/
def removePacked (pieces : List Piece) (idxs : List ℕ) : List Piece :=
  (List.insertionSort (· ≥ ·) idxs).foldl (fun l i => l.eraseIdx i) pieces

/-- Indices returned by `simulatePacking` all lie in `[i0, i0 + |pieces|)`. -/
theorem simulatePacking_bounds :
    ∀ (pieces : List Piece) (panel : Panel) (i0 : ℕ),
      ∀ i ∈ (simulatePacking panel pieces i0).2, i0 ≤ i ∧ i < i0 + pieces.length := by
  intro pieces
  induction pieces with
  | nil => intro panel i0 i hi; simp [simulatePacking] at hi
  | cons q rest ih =>
    intro panel i0 i hi
    rcases hp : panel.try_place q.1 q.2 with ⟨pos, panel'⟩
    cases pos with
    | some pl =>
      rw [simulatePacking, hp] at hi
      simp only [List.mem_cons] at hi
      rcases hi with rfl | hi
      · simp only [List.length_cons]
        omega
      · have := ih panel' (i0 + 1) i hi
        simp only [List.length_cons]
        omega
    | none =>
      rw [simulatePacking, hp] at hi
      have := ih panel' (i0 + 1) i hi
      simp only [List.length_cons]
      omega

/-- `mkCandidate` only produces candidates whose packed-index list is
non-empty, comes from the board's simulation, and is bounded by the pending
length. -/
theorem mkCandidate_some {pieces : List Piece} {b : BoardType} {c : Candidate}
    (h : mkCandidate pieces b = some c) :
    c.board = b ∧ (c.panel, c.packed) = evalBoard pieces b ∧ c.packed ≠ [] ∧
      c.efficiency = b.cost / packedArea pieces c.packed ∧
      ∀ i ∈ c.packed, i < pieces.length := by
  unfold mkCandidate at h
  by_cases he : (evalBoard pieces b).2.isEmpty
  · simp [he] at h
  · simp only [he, if_false] at h
    cases h
    refine ⟨rfl, rfl, ?_, rfl, ?_⟩
    · simpa [List.isEmpty_iff] using he
    · intro i hi
      have := simulatePacking_bounds pieces (Panel.init b.width b.height) 0 i hi
      omega

/-- Any candidate coming out of the selection loop satisfies a property that
holds of the incumbent and of every `mkCandidate` result. -/
theorem chooseBestAux_some {pieces : List Piece} {c : Candidate}
    (P : Candidate → Prop)
    (hmk : ∀ b c', mkCandidate pieces b = some c' → P c') :
    ∀ (boards : List BoardType) (best : Option Candidate),
      (∀ c0, best = some c0 → P c0) →
      chooseBestAux pieces boards best = some c → P c := by
  intro boards
  induction boards with
  | nil => intro best hbest h; exact hbest c h
  | cons b rest ih =>
    intro best hbest h
    rw [chooseBestAux] at h
    split at h
    · exact ih best hbest h
    · rename_i c' hm
      split at h
      · exact ih _ (by rintro x hx; cases hx; exact hmk b c' hm) h
      · rename_i c0
        split at h
        · exact ih _ (by rintro x hx; cases hx; exact hmk b c' hm) h
        · exact ih _ (by rintro x hx; cases hx; exact hbest c0 rfl) h

/-- The committed candidate has a non-empty, in-bounds packed-index list. -/
theorem chooseBest_some_packed {pieces : List Piece} {boards : List BoardType}
    {c : Candidate} (h : chooseBest pieces boards = some c) :
    c.packed ≠ [] ∧ ∀ i ∈ c.packed, i < pieces.length := by
  refine chooseBestAux_some
    (fun c' => c'.packed ≠ [] ∧ ∀ i ∈ c'.packed, i < pieces.length)
    (fun b c' hm => ⟨(mkCandidate_some hm).2.2.1, (mkCandidate_some hm).2.2.2.2⟩)
    boards none (by simp) h

/-- Folding `eraseIdx` can only shrink a list. -/
theorem foldl_eraseIdx_length_le {α : Type} :
    ∀ (idxs : List ℕ) (l : List α),
      (idxs.foldl (fun l i => l.eraseIdx i) l).length ≤ l.length := by
  intro idxs
  induction idxs with
  | nil => intro l; simp
  | cons i rest ih =>
    intro l
    calc ((i :: rest).foldl (fun l i => l.eraseIdx i) l).length
        ≤ (l.eraseIdx i).length := ih (l.eraseIdx i)
      _ ≤ l.length := List.length_eraseIdx_le l i

/-- Removing a non-empty set of in-bounds packed indices strictly shrinks the
pending list: the argument behind the termination of the `while` loop. -/
theorem removePacked_length_lt {pieces : List Piece} {idxs : List ℕ}
    (h1 : idxs ≠ []) (h2 : ∀ i ∈ idxs, i < pieces.length) :
    (removePacked pieces idxs).length < pieces.length := by
  have hperm : List.Perm (List.insertionSort (· ≥ ·) idxs) idxs :=
    List.perm_insertionSort _ idxs
  rcases hs : List.insertionSort (· ≥ ·) idxs with _ | ⟨j, rest⟩
  · rw [hs] at hperm
    exact absurd hperm.symm.eq_nil h1
  · have hj : j ∈ idxs := hperm.mem_iff.mp (by rw [hs]; exact List.mem_cons_self j rest)
    have hjlt : j < pieces.length := h2 j hj
    unfold removePacked
    rw [hs]
    calc ((j :: rest).foldl (fun l i => l.eraseIdx i) pieces).length
        ≤ (pieces.eraseIdx j).length := foldl_eraseIdx_length_le rest _
      _ = pieces.length - 1 := List.length_eraseIdx_of_lt hjlt
      _ < pieces.length := by omega

/-- The `while pieces:` loop of `optimize_purchase`, with the loop-carried
state (`board_count`, `total_cost`, `board_solution`, `cutting_plan`) made
explicit. A successful exit returns
`(cutting_plan, board_solution, total_cost)`; an unpackable pending set
raises (returns `Except.error`) with no partial result. -/
def packLoop (boards : List BoardType) : List Piece → ℕ → ℚ →
    List BoardType → List PlanItem →
    Except String (List PlanItem × List BoardType × ℚ)
  | [], _, total_cost, board_solution, cutting_plan =>
    .ok (cutting_plan, board_solution, total_cost)
  | q :: ps, board_count, total_cost, board_solution, cutting_plan =>
    match h : chooseBest (q :: ps) boards with
    | none => .error "Cannot pack remaining pieces in any available board type!"
    | some c =>
      packLoop boards (removePacked (q :: ps) c.packed) (board_count + 1)
        (total_cost + c.board.cost) (board_solution ++ [c.board])
        (cutting_plan ++ c.panel.placements.map fun pl =>
          ⟨pl.x, pl.y, pl.w, pl.h, board_count + 1, pl.rotated⟩)
termination_by pieces _ _ _ _ => pieces.length
decreasing_by
  have hb := chooseBest_some_packed h
  exact removePacked_length_lt hb.1 hb.2

/-- `optimize_purchase`: expand and sort the required pieces, then run the
greedy board-selection loop with empty accumulators. -/
def optimize_purchase (required_pieces : List PieceReq)
    (available_boards : List BoardType) :
    Except String (List PlanItem × List BoardType × ℚ) :=
  packLoop available_boards (sortPieces (expandPieces required_pieces)) 0 0 [] []

/-- Recover the original (pre-rotation) dimensions from a recorded placement:
`(w, h)` when unrotated, `(h, w)` when rotated. -/
def unrotated (pl : Placement) : Piece :=
  if pl.rotated then (pl.h, pl.w) else (pl.w, pl.h)

/-- Recover the original (pre-rotation) dimensions from a cutting-plan
entry. -/
def planPiece (q : PlanItem) : Piece :=
  if q.rotated then (q.h, q.w) else (q.w, q.h)

/-- The zero rectangle, used as an out-of-range default for list lookups. -/
def defaultRect : Rect := ⟨0, 0, 0, 0⟩

/-- Transcribed from the spec (§4.1 step 2): the index of the first free
rectangle that fits the current orientation. -/
def fitIndex (free : List Rect) (w h : ℚ) : Option ℕ :=
  free.findIdx? fun f => decide (f.w ≥ w ∧ f.h ≥ h)

/-- Transcribed from the spec (§4.1 step 3): accept the first fitting
rectangle, delete it by index, and append the right and bottom strips. -/
def Panel.placeOrientSpec (p : Panel) (w h : ℚ) (rot : Bool) :
    Option (Placement × Panel) :=
  match fitIndex p.free_rectangles w h with
  | none => none
  | some i =>
    let f := p.free_rectangles.getD i defaultRect
    some (⟨f.x, f.y, w, h, rot⟩,
      { p with
        placements := p.placements ++ [⟨f.x, f.y, w, h, rot⟩]
        free_rectangles := p.free_rectangles.eraseIdx i ++ splitFree f w h })

/-- Transcribed from the spec (§4.1 steps 1-4): unrotated orientation first,
rotated second, returning on the first match across both orientations. -/
def Panel.try_place_spec (p : Panel) (pw ph : ℚ) : Option Placement × Panel :=
  match p.placeOrientSpec pw ph false with
  | some (pl, p') => (some pl, p')
  | none =>
    match p.placeOrientSpec ph pw true with
    | some (pl, p') => (some pl, p')
    | none => (none, p)

/-- The sublist of `ps` at the positions not listed in `idxs`: the pieces that
remain pending after a commit. -/
def keepAt (idxs : List ℕ) : ℕ → List Piece → List Piece
  | _, [] => []
  | k, q :: ps => if k ∈ idxs then keepAt idxs (k + 1) ps else q :: keepAt idxs (k + 1) ps

/-- One comparison step of the selection loop, isolated: keep the incumbent
unless the new candidate's efficiency is strictly lower. -/
def pickBetter (best : Option Candidate) (c : Candidate) : Option Candidate :=
  match best with
  | none => some c
  | some c0 => if c.efficiency < c0.efficiency then some c else some c0

/-- `c` occurs in `l` with a strictly lower efficiency than everything before
its occurrence and an efficiency less than or equal to everything after it:
`c` is the unique first minimiser, i.e. the winner under strict less-than
comparison with ties resolved to the earlier candidate. -/
def FirstMin (l : List Candidate) (c : Candidate) : Prop :=
  ∃ pre post, l = pre ++ c :: post ∧
    (∀ d ∈ pre, c.efficiency < d.efficiency) ∧
    ∀ d ∈ post, c.efficiency ≤ d.efficiency

/-- `x, y` is placed with extent `w × h` inside a `W × H` board. -/
def inBoard (W H x y w h : ℚ) : Prop :=
  0 ≤ x ∧ 0 ≤ y ∧ x + w ≤ W ∧ y + h ≤ H

/-- Every free rectangle and every recorded placement of the panel lies inside
the panel's own bounds. -/
def PanelInv (p : Panel) : Prop :=
  (∀ f ∈ p.free_rectangles, inBoard p.width p.height f.x f.y f.w f.h) ∧
    ∀ pl ∈ p.placements, inBoard p.width p.height pl.x pl.y pl.w pl.h

/-- A cutting-plan entry is consistent with a board solution: its 1-based
board ordinal is in range and the placement fits the board type purchased at
that ordinal. -/
def planOk (sol : List BoardType) (q : PlanItem) : Prop :=
  1 ≤ q.board ∧ q.board ≤ sol.length ∧
    inBoard (sol.getD (q.board - 1) ⟨0, 0, 0⟩).width
      (sol.getD (q.board - 1) ⟨0, 0, 0⟩).height q.x q.y q.w q.h

/-- The pending lists reachable from a start state by committing the selected
candidate of `chooseBest` and deleting its packed indices: exactly the states
the `while` loop of `optimize_purchase` steps through. -/
inductive PendReach (boards : List BoardType) : List Piece → List Piece → Prop
  | refl (l : List Piece) : PendReach boards l l
  | step {l m : List Piece} (c : Candidate) :
      chooseBest l boards = some c →
      PendReach boards (removePacked l c.packed) m → PendReach boards l m

/-- What a successful scan returns: the first fitting rectangle, which fits
the requested orientation, is a member of the free list, and the remainder is
the free list with exactly that one occurrence deleted (so one element
shorter and made of members of the original list). -/
theorem scanPlace_some {w h : ℚ} :
    ∀ {free : List Rect} {f : Rect} {rem : List Rect},
      scanPlace w h free = some (f, rem) →
      f ∈ free ∧ w ≤ f.w ∧ h ≤ f.h ∧ rem.length + 1 = free.length ∧
        ∀ g ∈ rem, g ∈ free := by
  intro free
  induction free with
  | nil => intro f rem hsc; simp [scanPlace] at hsc
  | cons a rest ih =>
    intro f rem hsc
    rw [scanPlace] at hsc
    split at hsc
    · rename_i hfit
      simp only [Option.some.injEq, Prod.mk.injEq] at hsc
      obtain ⟨rfl, rfl⟩ := hsc
      exact ⟨List.mem_cons_self _ _, hfit.1, hfit.2, by simp,
        fun g hg => List.mem_cons_of_mem _ hg⟩
    · split at hsc
      · exact absurd hsc (by simp)
      · rename_i g rest' hrec
        simp only [Option.some.injEq, Prod.mk.injEq] at hsc
        obtain ⟨rfl, rfl⟩ := hsc
        obtain ⟨h1, h2, h3, h4, h5⟩ := ih hrec
        refine ⟨List.mem_cons_of_mem _ h1, h2, h3, by simp [← h4], ?_⟩
        intro x hx
        rcases List.mem_cons.mp hx with rfl | hx
        · exact List.mem_cons_self _ _
        · exact List.mem_cons_of_mem _ (h5 x hx)

/-- A failed scan means no free rectangle fits the orientation. -/
theorem scanPlace_none {w h : ℚ} :
    ∀ {free : List Rect}, scanPlace w h free = none →
      ∀ f ∈ free, ¬(f.w ≥ w ∧ f.h ≥ h) := by
  intro free
  induction free with
  | nil => intro _ f hf; simp at hf
  | cons a rest ih =>
    intro hsc f hf
    rw [scanPlace] at hsc
    split at hsc
    · exact absurd hsc (by simp)
    · rename_i hfit
      rcases List.mem_cons.mp hf with rfl | hf
      · exact hfit
      · split at hsc
        · rename_i hrec
          exact ih hrec f hf
        · exact absurd hsc (by simp)

/-- Anatomy of a successful `placeOrient`: the returned placement sits at the
origin of the first fitting free rectangle with the requested orientation and
rotation flag, it is appended to the placements, and the board dimensions are
untouched. -/
theorem placeOrient_some {p : Panel} {w h : ℚ} {rot : Bool} {pl : Placement}
    {p' : Panel} (hpo : p.placeOrient w h rot = some (pl, p')) :
    pl.w = w ∧ pl.h = h ∧ pl.rotated = rot ∧
      p'.placements = p.placements ++ [pl] ∧
      p'.width = p.width ∧ p'.height = p.height ∧
      p.free_rectangles.length ≤ p'.free_rectangles.length + 1 := by
  unfold Panel.placeOrient at hpo
  split at hpo
  · exact absurd hpo (by simp)
  · rename_i f remaining hscan
    simp only [Option.some.injEq, Prod.mk.injEq] at hpo
    obtain ⟨rfl, rfl⟩ := hpo
    obtain ⟨_, _, _, hlen, _⟩ := scanPlace_some hscan
    refine ⟨rfl, rfl, rfl, rfl, rfl, rfl, ?_⟩
    simp only [List.length_append]
    omega

/-- A failed `placeOrient` is exactly a failed scan. -/
theorem placeOrient_none {p : Panel} {w h : ℚ} {rot : Bool}
    (hpo : p.placeOrient w h rot = none) :
    scanPlace w h p.free_rectangles = none := by
  unfold Panel.placeOrient at hpo
  split at hpo
  · assumption
  · exact absurd hpo (by simp)

/-- Anatomy of a successful `try_place`: the placement is appended, its
dimensions unrotate back to the attempted piece, and the board dimensions are
untouched; the free list shrinks by at most one entry. -/
theorem try_place_some {p : Panel} {pw ph : ℚ} {pl : Placement} {p' : Panel}
    (h : p.try_place pw ph = (some pl, p')) :
    p'.placements = p.placements ++ [pl] ∧ unrotated pl = (pw, ph) ∧
      p'.width = p.width ∧ p'.height = p.height ∧
      p.free_rectangles.length ≤ p'.free_rectangles.length + 1 := by
  unfold Panel.try_place at h
  split at h
  · rename_i pl0 p0 hpo
    simp only [Prod.mk.injEq, Option.some.injEq] at h
    obtain ⟨rfl, rfl⟩ := h
    obtain ⟨hw, hh, hrot, hplc, hW, hH, hfl⟩ := placeOrient_some hpo
    exact ⟨hplc, by simp [unrotated, hrot, hw, hh], hW, hH, hfl⟩
  · split at h
    · rename_i pl0 p0 hpo
      simp only [Prod.mk.injEq, Option.some.injEq] at h
      obtain ⟨rfl, rfl⟩ := h
      obtain ⟨hw, hh, hrot, hplc, hW, hH, hfl⟩ := placeOrient_some hpo
      exact ⟨hplc, by simp [unrotated, hrot, hw, hh], hW, hH, hfl⟩
    · exact absurd h (by simp)

/-- C9 helper: on the no-fit path `try_place` hands back the untouched
panel. -/
theorem try_place_none {p : Panel} {pw ph : ℚ} {p' : Panel}
    (h : p.try_place pw ph = (none, p')) : p' = p := by
  unfold Panel.try_place at h
  split at h
  · simp at h
  · split at h
    · simp at h
    · exact (Prod.mk.injEq _ _ _ _ ▸ h).2.symm

/-- The recursive first-fit scan of the source is the find-first-index,
delete-by-index procedure described by the spec. -/
theorem scanPlace_eq_fitIndex (w h : ℚ) :
    ∀ free : List Rect,
      scanPlace w h free =
        match fitIndex free w h with
        | none => none
        | some i => some (free.getD i defaultRect, free.eraseIdx i) := by
  intro free
  induction free with
  | nil => rfl
  | cons a rest ih =>
    by_cases hfit : a.w ≥ w ∧ a.h ≥ h
    · rw [scanPlace, if_pos hfit]
      simp [fitIndex, hfit]
    · rw [scanPlace, if_neg hfit]
      have hstep : fitIndex (a :: rest) w h =
          (fitIndex rest w h).map fun i => i + 1 := by
        simp only [fitIndex, List.findIdx?_cons, decide_eq_true_eq, hfit, if_false]
        exact List.findIdx?_succ
      rw [ih, hstep]
      cases hfi : fitIndex rest w h with
      | none => simp
      | some i => simp

/-- `placeOrient` agrees with its spec transcription. -/
theorem placeOrient_eq_spec (p : Panel) (w h : ℚ) (rot : Bool) :
    p.placeOrient w h rot = p.placeOrientSpec w h rot := by
  unfold Panel.placeOrient Panel.placeOrientSpec
  rw [scanPlace_eq_fitIndex]
  cases hfi : fitIndex p.free_rectangles w h <;> simp


/-- Unfolding equation: simulating an empty pending list does nothing. -/
theorem simulatePacking_nil (panel : Panel) (i0 : ℕ) :
    simulatePacking panel [] i0 = (panel, []) := rfl

/-- Unfolding equation: a placed head piece contributes its index. -/
theorem simulatePacking_cons_some {panel panel' : Panel} {q : Piece}
    {pl : Placement} (h : panel.try_place q.1 q.2 = (some pl, panel'))
    (rest : List Piece) (i0 : ℕ) :
    simulatePacking panel (q :: rest) i0 =
      ((simulatePacking panel' rest (i0 + 1)).1,
        i0 :: (simulatePacking panel' rest (i0 + 1)).2) := by
  rw [simulatePacking, h]

/-- Unfolding equation: an unplaced head piece is skipped. -/
theorem simulatePacking_cons_none {panel panel' : Panel} {q : Piece}
    (h : panel.try_place q.1 q.2 = (none, panel'))
    (rest : List Piece) (i0 : ℕ) :
    simulatePacking panel (q :: rest) i0 = simulatePacking panel' rest (i0 + 1) := by
  rw [simulatePacking, h]

/-- The packed-index list of a simulation is strictly increasing (the indices
are collected in enumeration order). -/
theorem simulatePacking_sorted :
    ∀ (pieces : List Piece) (panel : Panel) (i0 : ℕ),
      List.Sorted (· < ·) (simulatePacking panel pieces i0).2 := by
  intro pieces
  induction pieces with
  | nil => intro panel i0; simp [simulatePacking]
  | cons q rest ih =>
    intro panel i0
    rcases hp : panel.try_place q.1 q.2 with ⟨pos, panel'⟩
    cases pos with
    | some pl =>
      rw [simulatePacking_cons_some hp]
      refine List.sorted_cons.mpr ⟨?_, ih panel' (i0 + 1)⟩
      intro b hb
      exact lt_of_lt_of_le (by omega)
        (simulatePacking_bounds rest panel' (i0 + 1) b hb).1
    | none =>
      rw [simulatePacking_cons_none hp]
      exact ih panel' (i0 + 1)

/-- Each packed index accounts for exactly one appended placement. -/
theorem simulatePacking_length :
    ∀ (pieces : List Piece) (panel : Panel) (i0 : ℕ),
      (simulatePacking panel pieces i0).1.placements.length =
        panel.placements.length + (simulatePacking panel pieces i0).2.length := by
  intro pieces
  induction pieces with
  | nil => intro panel i0; simp [simulatePacking]
  | cons q rest ih =>
    intro panel i0
    rcases hp : panel.try_place q.1 q.2 with ⟨pos, panel'⟩
    cases pos with
    | some pl =>
      rw [simulatePacking_cons_some hp]
      have hplc := (try_place_some hp).1
      simp only [List.length_cons]
      rw [ih panel' (i0 + 1), hplc]
      simp only [List.length_append, List.length_cons, List.length_nil]
      omega
    | none =>
      rw [simulatePacking_cons_none hp]
      cases try_place_none hp
      exact ih panel (i0 + 1)

/-- The selection loop returns either its incumbent or a candidate built from
one of the remaining catalog entries. -/
theorem chooseBestAux_origin {pieces : List Piece} {c : Candidate} :
    ∀ (boards : List BoardType) (best : Option Candidate),
      chooseBestAux pieces boards best = some c →
      best = some c ∨ ∃ b ∈ boards, mkCandidate pieces b = some c := by
  intro boards
  induction boards with
  | nil => intro best h; exact Or.inl h
  | cons b rest ih =>
    intro best h
    rw [chooseBestAux] at h
    split at h
    · rcases ih best h with h' | ⟨b', hb', hmk⟩
      · exact Or.inl h'
      · exact Or.inr ⟨b', List.mem_cons_of_mem _ hb', hmk⟩
    · rename_i c' hm
      split at h
      · rcases ih (some c') h with h' | ⟨b', hb', hmk⟩
        · cases h'
          exact Or.inr ⟨b, List.mem_cons_self _ _, hm⟩
        · exact Or.inr ⟨b', List.mem_cons_of_mem _ hb', hmk⟩
      · rename_i c0
        split at h
        · rcases ih (some c') h with h' | ⟨b', hb', hmk⟩
          · cases h'
            exact Or.inr ⟨b, List.mem_cons_self _ _, hm⟩
          · exact Or.inr ⟨b', List.mem_cons_of_mem _ hb', hmk⟩
        · rcases ih (some c0) h with h' | ⟨b', hb', hmk⟩
          · cases h'
            exact Or.inl rfl
          · exact Or.inr ⟨b', List.mem_cons_of_mem _ hb', hmk⟩

/-- The committed candidate of an iteration originates from `mkCandidate` on
one of the catalog's board types. -/
theorem chooseBest_some_origin {pieces : List Piece} {boards : List BoardType}
    {c : Candidate} (h : chooseBest pieces boards = some c) :
    ∃ b ∈ boards, mkCandidate pieces b = some c := by
  rcases chooseBestAux_origin boards none h with h' | h'
  · exact absurd h' (by simp)
  · exact h'

/-- Positions below every listed index are unaffected by `keepAt`. -/
theorem keepAt_cons_of_lt {j : ℕ} {idxs : List ℕ} :
    ∀ (ps : List Piece) (k : ℕ), j < k →
      keepAt (j :: idxs) k ps = keepAt idxs k ps := by
  intro ps
  induction ps with
  | nil => intro k _; rfl
  | cons q rest ih =>
    intro k hk
    by_cases hk2 : k ∈ idxs
    · rw [keepAt, if_pos (List.mem_cons_of_mem _ hk2), keepAt, if_pos hk2]
      exact ih (k + 1) (by omega)
    · have hknot : k ∉ j :: idxs := by
        simp only [List.mem_cons]
        rintro (rfl | hmem)
        · omega
        · exact hk2 hmem
      rw [keepAt, if_neg hknot, keepAt, if_neg hk2, ih (k + 1) (by omega)]

/-- Erasing one more position (below all others) commutes with `keepAt`. -/
theorem keepAt_eraseIdx {i : ℕ} {rest : List ℕ} (hrest : ∀ j ∈ rest, i < j) :
    ∀ (ps : List Piece) (k : ℕ), k ≤ i →
      (keepAt rest k ps).eraseIdx (i - k) = keepAt (i :: rest) k ps := by
  intro ps
  induction ps with
  | nil => intro k _; rfl
  | cons q ps ih =>
    intro k hk
    have hkr : k ∉ rest := fun hm => by have := hrest k hm; omega
    by_cases hki : k = i
    · subst hki
      rw [keepAt, if_neg hkr, keepAt, if_pos (List.mem_cons_self _ _),
        Nat.sub_self, List.eraseIdx_cons_zero]
      exact (keepAt_cons_of_lt ps (k + 1) (Nat.lt_succ_self k)).symm
    · have hknot : k ∉ i :: rest := by
        simp only [List.mem_cons]
        rintro (rfl | hmem)
        · exact hki rfl
        · exact hkr hmem
      rw [keepAt, if_neg hkr, keepAt, if_neg hknot,
        show i - k = (i - (k + 1)) + 1 by omega, List.eraseIdx_cons_succ,
        ih (k + 1) (by omega)]

/-- Inserting an element that compares below everything lands at the end. -/
theorem orderedInsert_eq_append (a : ℕ) :
    ∀ l : List ℕ, (∀ b ∈ l, ¬a ≥ b) →
      List.orderedInsert (· ≥ ·) a l = l ++ [a] := by
  intro l
  induction l with
  | nil => intro _; rfl
  | cons b rest ih =>
    intro hall
    rw [List.orderedInsert, if_neg (hall b (List.mem_cons_self _ _)),
      ih fun x hx => hall x (List.mem_cons_of_mem _ hx)]
    rfl

/-- On a strictly increasing index list, `sorted(idxs, reverse=True)` is just
the reversal. -/
theorem insertionSort_ge_of_sorted_lt :
    ∀ {idxs : List ℕ}, List.Sorted (· < ·) idxs →
      List.insertionSort (· ≥ ·) idxs = idxs.reverse := by
  intro idxs
  induction idxs with
  | nil => intro _; rfl
  | cons j rest ih =>
    intro hs
    rw [List.insertionSort, ih (List.sorted_cons.mp hs).2,
      orderedInsert_eq_append j rest.reverse ?bound, List.reverse_cons]
    intro b hb
    have := (List.sorted_cons.mp hs).1 b (List.mem_reverse.mp hb)
    omega

/-- With no indices to delete, `keepAt` keeps everything. -/
theorem keepAt_nil : ∀ (ps : List Piece) (k : ℕ), keepAt [] k ps = ps := by
  intro ps
  induction ps with
  | nil => intro k; rfl
  | cons q rest ih =>
    intro k
    rw [keepAt, if_neg (List.not_mem_nil k), ih (k + 1)]

/-- On a strictly increasing index list, the reverse-order `del pieces[i]`
loop keeps exactly the pieces at unlisted positions. -/
theorem removePacked_eq_keepAt {pieces : List Piece} {idxs : List ℕ}
    (hs : List.Sorted (· < ·) idxs) :
    removePacked pieces idxs = keepAt idxs 0 pieces := by
  unfold removePacked
  rw [insertionSort_ge_of_sorted_lt hs, List.foldl_reverse]
  induction idxs with
  | nil => exact (keepAt_nil pieces 0).symm
  | cons i rest ih =>
    rw [List.foldr_cons, ih (List.sorted_cons.mp hs).2,
      show (keepAt rest 0 pieces).eraseIdx i
          = (keepAt rest 0 pieces).eraseIdx (i - 0) by rw [Nat.sub_zero]]
    exact keepAt_eraseIdx (List.sorted_cons.mp hs).1 pieces 0 (Nat.zero_le i)

/-- Conservation through one simulation: the multiset of unrotated placement
dimensions gained by the panel, plus the pieces kept at unpacked positions,
is exactly the attempted piece multiset. -/
theorem simulatePacking_multiset :
    ∀ (pieces : List Piece) (panel : Panel) (i0 : ℕ),
      (((simulatePacking panel pieces i0).1.placements.map unrotated : List Piece) : Multiset Piece) +
          ↑(keepAt (simulatePacking panel pieces i0).2 i0 pieces) =
        ↑(panel.placements.map unrotated) + ↑pieces := by
  intro pieces
  induction pieces with
  | nil =>
    intro panel i0
    simp [simulatePacking_nil, keepAt]
  | cons q rest ih =>
    intro panel i0
    rcases hp : panel.try_place q.1 q.2 with ⟨pos, panel'⟩
    cases pos with
    | some pl =>
      rw [simulatePacking_cons_some hp]
      have hkeep :
          keepAt (i0 :: (simulatePacking panel' rest (i0 + 1)).2) i0 (q :: rest)
            = keepAt (simulatePacking panel' rest (i0 + 1)).2 (i0 + 1) rest := by
        rw [keepAt, if_pos (List.mem_cons_self _ _),
          keepAt_cons_of_lt rest (i0 + 1) (Nat.lt_succ_self i0)]
      rw [hkeep, ih panel' (i0 + 1), (try_place_some hp).1]
      have hq : unrotated pl = q :=
        ((try_place_some hp).2.1).trans Prod.mk.eta
      rw [List.map_append, List.map_singleton, hq]
      simp only [← Multiset.coe_add]
      rw [add_assoc, Multiset.coe_add, List.singleton_append]
    | none =>
      cases try_place_none hp
      rw [simulatePacking_cons_none hp]
      have hi0 : i0 ∉ (simulatePacking panel rest (i0 + 1)).2 := fun hmem => by
        have := (simulatePacking_bounds rest panel (i0 + 1) i0 hmem).1
        omega
      rw [keepAt, if_neg hi0]
      simp only [← Multiset.cons_coe, Multiset.add_cons]
      rw [ih panel (i0 + 1)]

/-- Unfolding equation: the loop exits successfully on an empty pending
list, returning the accumulated plan, solution and cost. -/
theorem packLoop_nil (boards : List BoardType) (bc : ℕ) (tc : ℚ)
    (sol : List BoardType) (plan : List PlanItem) :
    packLoop boards [] bc tc sol plan = .ok (plan, sol, tc) := by
  rw [packLoop]

/-- Unfolding equation: the loop raises when no board type packs anything. -/
theorem packLoop_cons_none {boards : List BoardType} {q : Piece}
    {ps : List Piece} (h : chooseBest (q :: ps) boards = none)
    (bc : ℕ) (tc : ℚ) (sol : List BoardType) (plan : List PlanItem) :
    packLoop boards (q :: ps) bc tc sol plan =
      .error "Cannot pack remaining pieces in any available board type!" := by
  rw [packLoop]
  split
  · rfl
  · rename_i c heq
    rw [h] at heq
    cases heq

/-- Unfolding equation: the loop commits the selected candidate and recurses
on the shrunken pending list. -/
theorem packLoop_cons_some {boards : List BoardType} {q : Piece}
    {ps : List Piece} {c : Candidate}
    (h : chooseBest (q :: ps) boards = some c)
    (bc : ℕ) (tc : ℚ) (sol : List BoardType) (plan : List PlanItem) :
    packLoop boards (q :: ps) bc tc sol plan =
      packLoop boards (removePacked (q :: ps) c.packed) (bc + 1)
        (tc + c.board.cost) (sol ++ [c.board])
        (plan ++ c.panel.placements.map fun pl =>
          ⟨pl.x, pl.y, pl.w, pl.h, bc + 1, pl.rotated⟩) := by
  rw [packLoop]
  split
  · rename_i heq
    rw [h] at heq
    cases heq
  · rename_i c' heq
    rw [h] at heq
    cases heq
    rfl

/-- Loop invariant for piece conservation: on a successful exit, the final
plan's unrotated dimensions are the accumulated plan's plus the whole pending
multiset. -/
theorem packLoop_multiset (boards : List BoardType) :
    ∀ (pieces : List Piece) (bc : ℕ) (tc : ℚ) (sol : List BoardType)
      (plan : List PlanItem),
      ∀ (plan' : List PlanItem) (sol' : List BoardType) (tc' : ℚ),
        packLoop boards pieces bc tc sol plan = .ok (plan', sol', tc') →
        ((plan'.map planPiece : List Piece) : Multiset Piece) =
          ↑(plan.map planPiece) + ↑pieces := by
  refine packLoop.induct boards
    (fun pieces bc tc sol plan =>
      ∀ (plan' : List PlanItem) (sol' : List BoardType) (tc' : ℚ),
        packLoop boards pieces bc tc sol plan = .ok (plan', sol', tc') →
        ((plan'.map planPiece : List Piece) : Multiset Piece) =
          ↑(plan.map planPiece) + ↑pieces)
    ?_ ?_ ?_
  · intro bc tc sol plan plan' sol' tc' hok
    rw [packLoop_nil] at hok
    cases hok
    simp
  · intro q ps bc tc sol plan hnone plan' sol' tc' hok
    rw [packLoop_cons_none hnone] at hok
    cases hok
  · intro q ps bc tc sol plan c hsome ih plan' sol' tc' hok
    rw [packLoop_cons_some hsome] at hok
    have hrec := ih plan' sol' tc' hok
    obtain ⟨b, hb, hmk⟩ := chooseBest_some_origin hsome
    obtain ⟨hcb, heval, hne, heff, hbnd⟩ := mkCandidate_some hmk
    have hpanel : c.panel = (evalBoard (q :: ps) b).1 := congrArg Prod.fst heval
    have hpacked : c.packed = (evalBoard (q :: ps) b).2 := congrArg Prod.snd heval
    have hsorted : List.Sorted (· < ·) c.packed := by
      rw [hpacked]
      exact simulatePacking_sorted (q :: ps) _ 0
    have hrem : removePacked (q :: ps) c.packed = keepAt c.packed 0 (q :: ps) :=
      removePacked_eq_keepAt hsorted
    have hsim := simulatePacking_multiset (q :: ps) (Panel.init b.width b.height) 0
    rw [hrec, hrem, List.map_append, List.map_map]
    have hcomp : (planPiece ∘ fun pl : Placement =>
        (⟨pl.x, pl.y, pl.w, pl.h, bc + 1, pl.rotated⟩ : PlanItem)) = unrotated := by
      funext pl
      rfl
    rw [hcomp, hpanel, hpacked]
    simp only [evalBoard]
    rw [← Multiset.coe_add, add_assoc, hsim]
    simp [Panel.init]

/-- C1: for every successful run of `optimize_purchase`, un-rotating every
cutting-plan placement recovers exactly the multiset of required pieces:
the multiset of `(w, h)` pairs — `(h, w)` for rotated placements — across the
returned cutting plan equals the multiset obtained by expanding every
`(width, height, quantity)` entry of `required_pieces` into `quantity`
copies, so every required piece appears exactly once. -/
theorem optimize_purchase_piece_multiset
    {required_pieces : List PieceReq} {available_boards : List BoardType}
    {plan : List PlanItem} {sol : List BoardType} {tc : ℚ}
    (h : optimize_purchase required_pieces available_boards = .ok (plan, sol, tc)) :
    ((plan.map planPiece : List Piece) : Multiset Piece) =
      ↑(expandPieces required_pieces) := by
  have hms := packLoop_multiset available_boards _ 0 0 [] [] plan sol tc h
  rw [hms]
  simp only [List.map_nil, Multiset.coe_nil, zero_add]
  rw [Multiset.coe_eq_coe]
  exact List.perm_insertionSort _ _

/-- The selection on one unit piece and one unit board, computed: the piece
is placed exactly, the sole free rectangle is consumed whole. -/
theorem chooseBest_unit_example :
    chooseBest [((1 : ℚ), (1 : ℚ))] [⟨1, 1, 1⟩] =
      some ⟨1, ⟨1, 1, 1⟩, ⟨1, 1, [], [⟨0, 0, 1, 1, false⟩]⟩, [0]⟩ := by
  norm_num [chooseBest, chooseBestAux, mkCandidate, evalBoard, simulatePacking,
    Panel.init, Panel.try_place, Panel.placeOrient, scanPlace, splitFree, packedArea]

/-- A complete concrete successful run: one 1×1 piece on a 1×1 board of
cost 1. -/
theorem optimize_purchase_unit_example :
    optimize_purchase [⟨1, 1, 1⟩] [⟨1, 1, 1⟩] =
      .ok ([⟨0, 0, 1, 1, 1, false⟩], [⟨1, 1, 1⟩], 1) := by
  have hexp : sortPieces (expandPieces [⟨1, 1, 1⟩]) = [((1 : ℚ), (1 : ℚ))] := by
    norm_num [sortPieces, expandPieces, List.insertionSort, List.orderedInsert]
  show packLoop _ _ 0 0 [] [] = _
  rw [hexp, packLoop_cons_some chooseBest_unit_example]
  norm_num [removePacked, List.insertionSort, List.orderedInsert, List.eraseIdx,
    packLoop_nil]

/-- Witness for C1 on the concrete unit run. -/
theorem optimize_purchase_piece_multiset_witness :
    (([⟨0, 0, 1, 1, 1, false⟩].map planPiece : List Piece) : Multiset Piece) =
      ↑(expandPieces [⟨1, 1, 1⟩]) :=
  @optimize_purchase_piece_multiset [⟨1, 1, 1⟩] [⟨1, 1, 1⟩]
    [⟨0, 0, 1, 1, 1, false⟩] [⟨1, 1, 1⟩] 1 optimize_purchase_unit_example

/-- C4: `try_place` coincides with the spec's description of the free-space
update: orientations tried unrotated first and rotated second, free
rectangles scanned in list order accepting the first fit, the matched
rectangle deleted and the conditional right and bottom strips appended, with
an immediate return on the first match across both orientations. -/
theorem try_place_eq_spec (p : Panel) (pw ph : ℚ) :
    p.try_place pw ph = p.try_place_spec pw ph := by
  unfold Panel.try_place Panel.try_place_spec
  rw [placeOrient_eq_spec, placeOrient_eq_spec]

/-- C5 counterexample: an exact fit (piece 100×100 into the sole free
rectangle of a fresh 100×100 board) deletes the matched free rectangle and
appends no strip, so the free list length strictly decreases (1 to 0) — the
claimed monotone non-decrease is false. -/
theorem try_place_free_length_counterexample :
    ((Panel.init 100 100).try_place 100 100).2.free_rectangles.length <
      (Panel.init 100 100).free_rectangles.length := by
  norm_num [Panel.init, Panel.try_place, Panel.placeOrient, scanPlace, splitFree]

/-- C5 (amended): one `try_place` call deletes at most one free rectangle,
so the free-rectangle list length after a call is at least its length before
the call minus one; the originally claimed monotone non-decrease does not
hold (see the counterexample). -/
theorem try_place_free_length_amended (p : Panel) (pw ph : ℚ) :
    p.free_rectangles.length ≤ (p.try_place pw ph).2.free_rectangles.length + 1 := by
  rcases hp : p.try_place pw ph with ⟨pos, p'⟩
  cases pos with
  | none =>
    rw [try_place_none hp]
    exact Nat.le_succ _
  | some pl => exact (try_place_some hp).2.2.2.2

/-- C9: when `try_place` finds no fit in either orientation it returns the
panel with its free-rectangle and placement lists exactly as they were. -/
theorem try_place_noFit_state_unchanged (p : Panel) (pw ph : ℚ)
    (h : (p.try_place pw ph).1 = none) :
    (p.try_place pw ph).2 = p := by
  rcases hp : p.try_place pw ph with ⟨pos, p'⟩
  rw [hp] at h
  cases h
  exact try_place_none hp

/-- Witness for C9: a 5×5 piece fits a 1×1 board in neither orientation. -/
theorem try_place_noFit_state_unchanged_witness :
    ((Panel.init 1 1).try_place 5 5).2 = Panel.init 1 1 :=
  try_place_noFit_state_unchanged (Panel.init 1 1) 5 5 rfl

/-- C8: whenever `chooseBest` selects a candidate, that candidate packed at
least one piece and deleting its packed indices strictly shrinks the pending
list — the variant that makes the `while` loop of `optimize_purchase`
terminate (the Lean embedding `packLoop` is accepted as a total function on
exactly this measure). -/
theorem chooseBest_commit_shrinks {pieces : List Piece} {boards : List BoardType}
    {c : Candidate} (h : chooseBest pieces boards = some c) :
    c.packed ≠ [] ∧ (removePacked pieces c.packed).length < pieces.length := by
  have hb := chooseBest_some_packed h
  exact ⟨hb.1, removePacked_length_lt hb.1 hb.2⟩

/-- Witness for C8 on a one-piece, one-board instance. -/
theorem chooseBest_commit_shrinks_witness :
    ([0] : List ℕ) ≠ [] ∧
      (removePacked [((1 : ℚ), (1 : ℚ))] [0]).length < [((1 : ℚ), (1 : ℚ))].length :=
  @chooseBest_commit_shrinks [((1 : ℚ), (1 : ℚ))] [⟨1, 1, 1⟩]
    ⟨1, ⟨1, 1, 1⟩, ⟨1, 1, [], [⟨0, 0, 1, 1, false⟩]⟩, [0]⟩ chooseBest_unit_example

/-- If every required entry has quantity zero, the expansion is empty. -/
theorem expandPieces_eq_nil : ∀ {required_pieces : List PieceReq},
    (∀ r ∈ required_pieces, r.qty = 0) → expandPieces required_pieces = [] := by
  intro req
  induction req with
  | nil => intro _; rfl
  | cons r rest ih =>
    intro h
    show (r :: rest).flatMap _ = []
    rw [List.flatMap_cons, h r (List.mem_cons_self _ _)]
    simp only [List.replicate_zero, List.nil_append]
    exact ih fun x hx => h x (List.mem_cons_of_mem _ hx)

/-- C10: an empty demand (no entries, or only zero quantities) makes
`optimize_purchase` return an empty cutting plan, an empty board solution and
total cost 0, for any catalog — the `while` loop is never entered, so nothing
is raised. -/
theorem optimize_purchase_empty_demand {required_pieces : List PieceReq}
    (available_boards : List BoardType)
    (h : ∀ r ∈ required_pieces, r.qty = 0) :
    optimize_purchase required_pieces available_boards = .ok ([], [], 0) := by
  unfold optimize_purchase
  rw [expandPieces_eq_nil h, show sortPieces [] = [] from rfl]
  exact packLoop_nil _ 0 0 [] []

/-- Witness for C10: one zero-quantity entry and an empty catalog. -/
theorem optimize_purchase_empty_demand_witness :
    optimize_purchase [⟨1, 2, 0⟩] [] = .ok ([], [], 0) :=
  optimize_purchase_empty_demand [] (by decide)

/-- Loop invariant for C3: the running total is the cost sum of the boards
bought so far, every recorded plan entry carries an ordinal in `[1, bc]`, and
the current ordinal is realised in the plan once any board was bought. -/
theorem packLoop_cost_ordinals (boards : List BoardType) :
    ∀ (pieces : List Piece) (bc : ℕ) (tc : ℚ) (sol : List BoardType)
      (plan : List PlanItem),
      tc = (sol.map BoardType.cost).sum →
      bc = sol.length →
      (∀ item ∈ plan, 1 ≤ item.board ∧ item.board ≤ bc) →
      (0 < bc → bc ∈ plan.map PlanItem.board) →
      ∀ (plan' : List PlanItem) (sol' : List BoardType) (tc' : ℚ),
        packLoop boards pieces bc tc sol plan = .ok (plan', sol', tc') →
        tc' = (sol'.map BoardType.cost).sum ∧
          (plan' ≠ [] →
            (plan'.map PlanItem.board).maximum = (sol'.length : WithBot ℕ)) := by
  refine packLoop.induct boards
    (fun pieces bc tc sol plan =>
      tc = (sol.map BoardType.cost).sum →
      bc = sol.length →
      (∀ item ∈ plan, 1 ≤ item.board ∧ item.board ≤ bc) →
      (0 < bc → bc ∈ plan.map PlanItem.board) →
      ∀ (plan' : List PlanItem) (sol' : List BoardType) (tc' : ℚ),
        packLoop boards pieces bc tc sol plan = .ok (plan', sol', tc') →
        tc' = (sol'.map BoardType.cost).sum ∧
          (plan' ≠ [] →
            (plan'.map PlanItem.board).maximum = (sol'.length : WithBot ℕ)))
    ?_ ?_ ?_
  · intro bc tc sol plan h1 h2 h3 h4 plan' sol' tc' hok
    rw [packLoop_nil] at hok
    cases hok
    refine ⟨h1, fun hne => ?_⟩
    obtain ⟨it, hit⟩ := List.exists_mem_of_ne_nil plan hne
    have hb := h3 it hit
    have hbc : 0 < bc := by omega
    refine List.maximum_eq_coe_iff.mpr ⟨?_, ?_⟩
    · rw [← h2]
      exact h4 hbc
    · intro a ha
      obtain ⟨it2, hit2, rfl⟩ := List.mem_map.mp ha
      rw [← h2]
      exact (h3 it2 hit2).2
  · intro q ps bc tc sol plan hnone h1 h2 h3 h4 plan' sol' tc' hok
    rw [packLoop_cons_none hnone] at hok
    cases hok
  · intro q ps bc tc sol plan c hsome ih h1 h2 h3 h4 plan' sol' tc' hok
    rw [packLoop_cons_some hsome] at hok
    obtain ⟨b, hb, hmk⟩ := chooseBest_some_origin hsome
    obtain ⟨hcb, heval, hne, heff, hbnd⟩ := mkCandidate_some hmk
    have hplne : c.panel.placements ≠ [] := by
      have hpanel : c.panel = (evalBoard (q :: ps) b).1 := congrArg Prod.fst heval
      have hpacked : c.packed = (evalBoard (q :: ps) b).2 := congrArg Prod.snd heval
      have hlen := simulatePacking_length (q :: ps) (Panel.init b.width b.height) 0
      simp only [show (Panel.init b.width b.height).placements = [] from rfl,
        List.length_nil, Nat.zero_add] at hlen
      intro hnil
      rw [hpanel, evalBoard] at hnil
      rw [hnil] at hlen
      simp only [List.length_nil] at hlen
      apply hne
      rw [hpacked, evalBoard]
      exact List.length_eq_zero.mp hlen.symm
    refine ih ?_ ?_ ?_ ?_ plan' sol' tc' hok
    · rw [h1, List.map_append, List.sum_append]
      simp
    · simp [h2]
    · intro item hitem
      rcases List.mem_append.mp hitem with hitem | hitem
      · have := h3 item hitem
        omega
      · obtain ⟨pl, hpl, rfl⟩ := List.mem_map.mp hitem
        simp
    · intro _
      obtain ⟨pl, hpl⟩ := List.exists_mem_of_ne_nil _ hplne
      refine List.mem_map.mpr ⟨⟨pl.x, pl.y, pl.w, pl.h, bc + 1, pl.rotated⟩, ?_, rfl⟩
      exact List.mem_append_right _ (List.mem_map.mpr ⟨pl, hpl, rfl⟩)

/-- C3: for every successful run, the returned `total_cost` is the sum of the
unit costs of the boards in `board_solution`, and — when the cutting plan is
non-empty — the largest board ordinal occurring in the plan equals the length
of `board_solution`. -/
theorem optimize_purchase_cost_and_count
    {required_pieces : List PieceReq} {available_boards : List BoardType}
    {plan : List PlanItem} {sol : List BoardType} {tc : ℚ}
    (h : optimize_purchase required_pieces available_boards = .ok (plan, sol, tc)) :
    tc = (sol.map BoardType.cost).sum ∧
      (plan ≠ [] → (plan.map PlanItem.board).maximum = (sol.length : WithBot ℕ)) :=
  packLoop_cost_ordinals available_boards _ 0 0 [] [] rfl rfl (by simp)
    (fun h0 => absurd h0 (Nat.lt_irrefl 0)) plan sol tc h

/-- Witness for C3 on the concrete unit run. -/
theorem optimize_purchase_cost_and_count_witness :
    (1 : ℚ) = (([⟨1, 1, 1⟩] : List BoardType).map BoardType.cost).sum ∧
      (([⟨0, 0, 1, 1, 1, false⟩] : List PlanItem) ≠ [] →
        (([⟨0, 0, 1, 1, 1, false⟩] : List PlanItem).map PlanItem.board).maximum =
          ((([⟨1, 1, 1⟩] : List BoardType).length : ℕ) : WithBot ℕ)) :=
  @optimize_purchase_cost_and_count [⟨1, 1, 1⟩] [⟨1, 1, 1⟩]
    [⟨0, 0, 1, 1, 1, false⟩] [⟨1, 1, 1⟩] 1 optimize_purchase_unit_example

/-- Both split strips stay inside the board when the consumed rectangle did
and the piece is non-negative and fits it. -/
theorem splitFree_inBoard {W H : ℚ} {f : Rect} {w h : ℚ}
    (hf : inBoard W H f.x f.y f.w f.h) (hw : 0 ≤ w) (hh : 0 ≤ h)
    (hfw : w ≤ f.w) (hfh : h ≤ f.h) :
    ∀ g ∈ splitFree f w h, inBoard W H g.x g.y g.w g.h := by
  obtain ⟨h1, h2, h3, h4⟩ := hf
  intro g hg
  unfold splitFree at hg
  rcases List.mem_append.mp hg with hg | hg
  · split at hg
    · rcases List.mem_singleton.mp hg with rfl
      refine ⟨?_, ?_, ?_, ?_⟩ <;> dsimp only <;> linarith
    · cases hg
  · split at hg
    · rcases List.mem_singleton.mp hg with rfl
      refine ⟨?_, ?_, ?_, ?_⟩ <;> dsimp only <;> linarith
    · cases hg

/-- Placing one piece (non-negative in the attempted orientation) preserves
the panel invariant. -/
theorem placeOrient_inv {p : Panel} {w h : ℚ} {rot : Bool} {pl : Placement}
    {p' : Panel} (hinv : PanelInv p) (hw : 0 ≤ w) (hh : 0 ≤ h)
    (hpo : p.placeOrient w h rot = some (pl, p')) : PanelInv p' := by
  unfold Panel.placeOrient at hpo
  split at hpo
  · exact absurd hpo (by simp)
  · rename_i f remaining hscan
    obtain ⟨hfmem, hwle, hhle, _, hremsub⟩ := scanPlace_some hscan
    simp only [Option.some.injEq, Prod.mk.injEq] at hpo
    obtain ⟨rfl, rfl⟩ := hpo
    have hf := hinv.1 f hfmem
    constructor
    · intro g hg
      rcases List.mem_append.mp hg with hg | hg
      · exact hinv.1 g (hremsub g hg)
      · exact splitFree_inBoard hf hw hh hwle hhle g hg
    · intro pl2 hpl2
      rcases List.mem_append.mp hpl2 with hpl2 | hpl2
      · exact hinv.2 pl2 hpl2
      · rcases List.mem_singleton.mp hpl2 with rfl
        obtain ⟨h1, h2, h3, h4⟩ := hf
        exact ⟨h1, h2, by linarith, by linarith⟩

/-- `try_place` never changes the board dimensions. -/
theorem try_place_dims (p : Panel) (pw ph : ℚ) :
    (p.try_place pw ph).2.width = p.width ∧ (p.try_place pw ph).2.height = p.height := by
  rcases hp : p.try_place pw ph with ⟨pos, p'⟩
  cases pos with
  | none => rw [try_place_none hp]; exact ⟨rfl, rfl⟩
  | some pl => exact ⟨(try_place_some hp).2.2.1, (try_place_some hp).2.2.2.1⟩

/-- `try_place` with a non-negative piece preserves the panel invariant. -/
theorem try_place_inv (p : Panel) (pw ph : ℚ) (hinv : PanelInv p)
    (hw : 0 ≤ pw) (hh : 0 ≤ ph) : PanelInv (p.try_place pw ph).2 := by
  unfold Panel.try_place
  split
  · rename_i pl p' hpo
    exact placeOrient_inv hinv hw hh hpo
  · split
    · rename_i pl p' hpo
      exact placeOrient_inv hinv hh hw hpo
    · exact hinv

/-- A whole simulation over non-negative pieces preserves the panel invariant
and the board dimensions. -/
theorem simulatePacking_inv :
    ∀ (pieces : List Piece) (panel : Panel) (i0 : ℕ),
      (∀ q ∈ pieces, 0 ≤ q.1 ∧ 0 ≤ q.2) → PanelInv panel →
      PanelInv (simulatePacking panel pieces i0).1 ∧
        (simulatePacking panel pieces i0).1.width = panel.width ∧
        (simulatePacking panel pieces i0).1.height = panel.height := by
  intro pieces
  induction pieces with
  | nil =>
    intro panel i0 _ hinv
    rw [simulatePacking_nil]
    exact ⟨hinv, rfl, rfl⟩
  | cons q rest ih =>
    intro panel i0 hpos hinv
    have hq := hpos q (List.mem_cons_self _ _)
    have hinv' : PanelInv (panel.try_place q.1 q.2).2 :=
      try_place_inv panel q.1 q.2 hinv hq.1 hq.2
    have hdims := try_place_dims panel q.1 q.2
    have hrest : ∀ x ∈ rest, 0 ≤ x.1 ∧ 0 ≤ x.2 :=
      fun x hx => hpos x (List.mem_cons_of_mem _ hx)
    rcases hp : panel.try_place q.1 q.2 with ⟨pos, panel'⟩
    rw [hp] at hinv' hdims
    cases pos with
    | some pl =>
      rw [simulatePacking_cons_some hp]
      have := ih panel' (i0 + 1) hrest hinv'
      exact ⟨this.1, this.2.1.trans hdims.1, this.2.2.trans hdims.2⟩
    | none =>
      rw [simulatePacking_cons_none hp]
      have := ih panel' (i0 + 1) hrest hinv'
      exact ⟨this.1, this.2.1.trans hdims.1, this.2.2.trans hdims.2⟩

/-- A fresh panel satisfies the invariant: its single free rectangle is the
whole board. -/
theorem panel_init_inv (W H : ℚ) : PanelInv (Panel.init W H) := by
  constructor
  · intro f hf
    rcases List.mem_singleton.mp hf with rfl
    exact ⟨le_refl 0, le_refl 0, by simp [Panel.init], by simp [Panel.init]⟩
  · intro pl hpl
    cases hpl

/-- Deleting indices yields a sublist of the original pending list. -/
theorem foldl_eraseIdx_sublist {α : Type} :
    ∀ (idxs : List ℕ) (l : List α),
      List.Sublist (idxs.foldl (fun l i => l.eraseIdx i) l) l := by
  intro idxs
  induction idxs with
  | nil => intro l; exact List.Sublist.refl l
  | cons i rest ih =>
    intro l
    exact (ih (l.eraseIdx i)).trans (List.eraseIdx_sublist l i)

/-- Every piece surviving the removal step was already pending. -/
theorem removePacked_subset {pieces : List Piece} {idxs : List ℕ} :
    ∀ x ∈ removePacked pieces idxs, x ∈ pieces := fun x hx =>
  (foldl_eraseIdx_sublist _ pieces).subset hx

/-- Loop invariant for C2: every recorded plan entry is consistent with the
board solution accumulated so far. -/
theorem packLoop_inBounds (boards : List BoardType) :
    ∀ (pieces : List Piece) (bc : ℕ) (tc : ℚ) (sol : List BoardType)
      (plan : List PlanItem),
      (∀ q ∈ pieces, 0 ≤ q.1 ∧ 0 ≤ q.2) →
      bc = sol.length →
      (∀ item ∈ plan, planOk sol item) →
      ∀ (plan' : List PlanItem) (sol' : List BoardType) (tc' : ℚ),
        packLoop boards pieces bc tc sol plan = .ok (plan', sol', tc') →
        ∀ item ∈ plan', planOk sol' item := by
  refine packLoop.induct boards
    (fun pieces bc tc sol plan =>
      (∀ q ∈ pieces, 0 ≤ q.1 ∧ 0 ≤ q.2) →
      bc = sol.length →
      (∀ item ∈ plan, planOk sol item) →
      ∀ (plan' : List PlanItem) (sol' : List BoardType) (tc' : ℚ),
        packLoop boards pieces bc tc sol plan = .ok (plan', sol', tc') →
        ∀ item ∈ plan', planOk sol' item)
    ?_ ?_ ?_
  · intro bc tc sol plan hpos h2 h3 plan' sol' tc' hok
    rw [packLoop_nil] at hok
    cases hok
    exact h3
  · intro q ps bc tc sol plan hnone hpos h2 h3 plan' sol' tc' hok
    rw [packLoop_cons_none hnone] at hok
    cases hok
  · intro q ps bc tc sol plan c hsome ih hpos h2 h3 plan' sol' tc' hok
    rw [packLoop_cons_some hsome] at hok
    obtain ⟨b, hb, hmk⟩ := chooseBest_some_origin hsome
    obtain ⟨hcb, heval, hne, heff, hbnd⟩ := mkCandidate_some hmk
    have hpanel : c.panel = (evalBoard (q :: ps) b).1 := congrArg Prod.fst heval
    rw [evalBoard] at hpanel
    have hpinv := simulatePacking_inv (q :: ps) (Panel.init b.width b.height) 0
      hpos (panel_init_inv b.width b.height)
    refine ih ?_ ?_ ?_ plan' sol' tc' hok
    · intro x hx
      exact hpos x (removePacked_subset x hx)
    · simp [h2]
    · intro item hitem
      rcases List.mem_append.mp hitem with hitem | hitem
      · obtain ⟨ho1, ho2, ho3⟩ := h3 item hitem
        refine ⟨ho1, by simp; omega, ?_⟩
        have hgetD : (sol ++ [c.board]).getD (item.board - 1) ⟨0, 0, 0⟩
            = sol.getD (item.board - 1) ⟨0, 0, 0⟩ := by
          rw [List.getD_eq_getElem?_getD, List.getD_eq_getElem?_getD,
            List.getElem?_append_left (by omega)]
        rw [hgetD]
        exact ho3
      · obtain ⟨pl, hpl, rfl⟩ := List.mem_map.mp hitem
        have hin : inBoard c.panel.width c.panel.height pl.x pl.y pl.w pl.h := by
          rw [hpanel]
          exact (hpinv.1).2 pl (by rw [← hpanel]; exact hpl)
        have hW : c.panel.width = c.board.width := by
          rw [hpanel, hcb]
          exact (hpinv.2.1).trans rfl
        have hH : c.panel.height = c.board.height := by
          rw [hpanel, hcb]
          exact (hpinv.2.2).trans rfl
        have hgetD : (sol ++ [c.board]).getD (bc + 1 - 1) ⟨0, 0, 0⟩ = c.board := by
          rw [List.getD_eq_getElem?_getD, Nat.add_sub_cancel, h2,
            List.getElem?_concat_length]
          rfl
        refine ⟨by simp, by simp [h2], ?_⟩
        show inBoard ((sol ++ [c.board]).getD (bc + 1 - 1) ⟨0, 0, 0⟩).width
          ((sol ++ [c.board]).getD (bc + 1 - 1) ⟨0, 0, 0⟩).height pl.x pl.y pl.w pl.h
        rw [hgetD, ← hW, ← hH]
        exact hin

/-- Every piece of the initial pending list comes from some required entry. -/
theorem expandPieces_mem {required_pieces : List PieceReq} {x : Piece}
    (h : x ∈ expandPieces required_pieces) :
    ∃ r ∈ required_pieces, x = (r.width, r.height) := by
  unfold expandPieces at h
  obtain ⟨r, hr, hx⟩ := List.mem_flatMap.mp h
  exact ⟨r, hr, List.eq_of_mem_replicate hx⟩

/-- C2: in every successful run with positive piece and board dimensions,
every placement `(x, y, w, h, board_number, rotated)` of the cutting plan
satisfies `0 ≤ x`, `0 ≤ y`, `x + w ≤ boardWidth` and `y + h ≤ boardHeight`,
where the board type is the entry of `board_solution` at (1-based) ordinal
`board_number`. -/
theorem optimize_purchase_placements_in_bounds
    {required_pieces : List PieceReq} {available_boards : List BoardType}
    {plan : List PlanItem} {sol : List BoardType} {tc : ℚ} {item : PlanItem}
    (hreq : ∀ r ∈ required_pieces, 0 < r.width ∧ 0 < r.height)
    (hboards : ∀ b ∈ available_boards, 0 < b.width ∧ 0 < b.height)
    (h : optimize_purchase required_pieces available_boards = .ok (plan, sol, tc))
    (hitem : item ∈ plan) :
    1 ≤ item.board ∧ item.board ≤ sol.length ∧
      0 ≤ item.x ∧ 0 ≤ item.y ∧
      item.x + item.w ≤ (sol.getD (item.board - 1) ⟨0, 0, 0⟩).width ∧
      item.y + item.h ≤ (sol.getD (item.board - 1) ⟨0, 0, 0⟩).height := by
  have hpos : ∀ q ∈ sortPieces (expandPieces required_pieces), 0 ≤ q.1 ∧ 0 ≤ q.2 := by
    intro x hx
    have hx2 : x ∈ expandPieces required_pieces :=
      ((List.perm_insertionSort _ _).mem_iff).mp hx
    obtain ⟨r, hr, rfl⟩ := expandPieces_mem hx2
    have := hreq r hr
    constructor <;> [linarith [this.1]; linarith [this.2]]
  have hok := packLoop_inBounds available_boards _ 0 0 [] [] hpos rfl (by simp)
    plan sol tc h item hitem
  obtain ⟨ho1, ho2, ho3, ho4, ho5, ho6⟩ := hok
  exact ⟨ho1, ho2, ho3, ho4, ho5, ho6⟩

/-- Witness for C2 on the concrete unit run. -/
theorem optimize_purchase_placements_in_bounds_witness :
    1 ≤ (⟨0, 0, 1, 1, 1, false⟩ : PlanItem).board ∧
      (⟨0, 0, 1, 1, 1, false⟩ : PlanItem).board ≤ ([⟨1, 1, 1⟩] : List BoardType).length ∧
      0 ≤ (⟨0, 0, 1, 1, 1, false⟩ : PlanItem).x ∧
      0 ≤ (⟨0, 0, 1, 1, 1, false⟩ : PlanItem).y ∧
      (⟨0, 0, 1, 1, 1, false⟩ : PlanItem).x + (⟨0, 0, 1, 1, 1, false⟩ : PlanItem).w ≤
        (([⟨1, 1, 1⟩] : List BoardType).getD
          ((⟨0, 0, 1, 1, 1, false⟩ : PlanItem).board - 1) ⟨0, 0, 0⟩).width ∧
      (⟨0, 0, 1, 1, 1, false⟩ : PlanItem).y + (⟨0, 0, 1, 1, 1, false⟩ : PlanItem).h ≤
        (([⟨1, 1, 1⟩] : List BoardType).getD
          ((⟨0, 0, 1, 1, 1, false⟩ : PlanItem).board - 1) ⟨0, 0, 0⟩).height :=
  @optimize_purchase_placements_in_bounds [⟨1, 1, 1⟩] [⟨1, 1, 1⟩]
    [⟨0, 0, 1, 1, 1, false⟩] [⟨1, 1, 1⟩] 1 ⟨0, 0, 1, 1, 1, false⟩
    (by norm_num) (by norm_num) optimize_purchase_unit_example
    (List.mem_singleton.mpr rfl)

/-- Once the selection loop holds an incumbent it can never return `none`. -/
theorem chooseBestAux_isSome {pieces : List Piece} :
    ∀ (boards : List BoardType) (c0 : Candidate),
      (chooseBestAux pieces boards (some c0)).isSome = true := by
  intro boards
  induction boards with
  | nil => intro c0; rfl
  | cons b rest ih =>
    intro c0
    rw [chooseBestAux]
    split
    · exact ih c0
    · rename_i c' hm
      dsimp only
      split
      · exact ih c'
      · exact ih c0

/-- An empty selection means no catalog entry produced a candidate. -/
theorem chooseBestAux_none {pieces : List Piece} :
    ∀ (boards : List BoardType) (best : Option Candidate),
      chooseBestAux pieces boards best = none →
      best = none ∧ ∀ b ∈ boards, mkCandidate pieces b = none := by
  intro boards
  induction boards with
  | nil =>
    intro best h
    exact ⟨h, by simp⟩
  | cons b rest ih =>
    intro best h
    rw [chooseBestAux] at h
    split at h
    · rename_i hm
      obtain ⟨hb, hall⟩ := ih best h
      refine ⟨hb, ?_⟩
      intro x hx
      rcases List.mem_cons.mp hx with rfl | hx
      · exact hm
      · exact hall x hx
    · rename_i c' hm
      exfalso
      rcases best with _ | c0
      · dsimp only at h
        have hs := @chooseBestAux_isSome pieces rest c'
        rw [h] at hs
        cases hs
      · dsimp only at h
        split at h
        · have hs := @chooseBestAux_isSome pieces rest c'
          rw [h] at hs
          cases hs
        · have hs := @chooseBestAux_isSome pieces rest c0
          rw [h] at hs
          cases hs

/-- `chooseBest` returns `none` exactly when every catalog board type packs
zero of the pending pieces. -/
theorem chooseBest_none_iff {pieces : List Piece} {boards : List BoardType} :
    chooseBest pieces boards = none ↔
      ∀ b ∈ boards, (evalBoard pieces b).2 = [] := by
  constructor
  · intro h b hb
    have hm := (chooseBestAux_none boards none h).2 b hb
    unfold mkCandidate at hm
    by_cases he : (evalBoard pieces b).2.isEmpty
    · exact List.isEmpty_iff.mp he
    · simp [he] at hm
  · intro hall
    have haux : ∀ bs : List BoardType, (∀ b ∈ bs, mkCandidate pieces b = none) →
        chooseBestAux pieces bs none = none := by
      intro bs
      induction bs with
      | nil => intro _; rfl
      | cons b rest ih =>
        intro hbs
        rw [chooseBestAux]
        split
        · exact ih fun x hx => hbs x (List.mem_cons_of_mem _ hx)
        · rename_i c' hm
          rw [hbs b (List.mem_cons_self _ _)] at hm
          cases hm
    exact haux boards fun b hb => by simp [mkCandidate, hall b hb]

/-- With nothing pending, no board packs anything and nothing is selected. -/
theorem chooseBest_nil (boards : List BoardType) :
    chooseBest [] boards = none :=
  chooseBest_none_iff.mpr fun _ _ => rfl

/-- The loop raises exactly when it can reach (by committing selected
candidates) a non-empty pending set on which every catalog board type packs
zero pieces; the `Except.error` branch carries no plan, solution or cost. -/
theorem packLoop_error_iff (boards : List BoardType) :
    ∀ (pieces : List Piece) (bc : ℕ) (tc : ℚ) (sol : List BoardType)
      (plan : List PlanItem),
      (∃ e, packLoop boards pieces bc tc sol plan = .error e) ↔
        ∃ pending, PendReach boards pieces pending ∧ pending ≠ [] ∧
          ∀ b ∈ boards, (evalBoard pending b).2 = [] := by
  refine packLoop.induct boards
    (fun pieces bc tc sol plan =>
      (∃ e, packLoop boards pieces bc tc sol plan = .error e) ↔
        ∃ pending, PendReach boards pieces pending ∧ pending ≠ [] ∧
          ∀ b ∈ boards, (evalBoard pending b).2 = [])
    ?_ ?_ ?_
  · intro bc tc sol plan
    constructor
    · rintro ⟨e, he⟩
      rw [packLoop_nil] at he
      cases he
    · rintro ⟨pending, hreach, hne, hall⟩
      cases hreach with
      | refl => exact absurd rfl hne
      | step c hc _ =>
        rw [chooseBest_nil] at hc
        cases hc
  · intro q ps bc tc sol plan hnone
    refine iff_of_true ?_ ?_
    · exact ⟨_, packLoop_cons_none hnone bc tc sol plan⟩
    · exact ⟨q :: ps, PendReach.refl _, List.cons_ne_nil q ps,
        chooseBest_none_iff.mp hnone⟩
  · intro q ps bc tc sol plan c hsome ih
    constructor
    · rintro ⟨e, he⟩
      rw [packLoop_cons_some hsome] at he
      obtain ⟨pending, hreach, hne, hall⟩ := ih.mp ⟨e, he⟩
      exact ⟨pending, PendReach.step c hsome hreach, hne, hall⟩
    · rintro ⟨pending, hreach, hne, hall⟩
      cases hreach with
      | refl =>
        rw [chooseBest_none_iff.mpr hall] at hsome
        cases hsome
      | step c' hc' hrest =>
        rw [hsome] at hc'
        cases hc'
        obtain ⟨e, he⟩ := ih.mpr ⟨pending, hrest, hne, hall⟩
        exact ⟨e, by rw [packLoop_cons_some hsome]; exact he⟩

/-- C6: `optimize_purchase` raises (the single `ValueError`, embedded as the
`Except.error` branch) exactly when some loop iteration reaches a non-empty
pending set on which every catalog board type packs zero pieces; on that
branch the result carries no cutting plan, board solution or cost, so the
run aborts with no partial output. -/
theorem optimize_purchase_error_iff (required_pieces : List PieceReq)
    (available_boards : List BoardType) :
    (∃ e, optimize_purchase required_pieces available_boards = .error e) ↔
      ∃ pending,
        PendReach available_boards (sortPieces (expandPieces required_pieces)) pending ∧
        pending ≠ [] ∧
        ∀ b ∈ available_boards, (evalBoard pending b).2 = [] :=
  packLoop_error_iff available_boards _ 0 0 [] []

/-- The selection loop is a left fold of the one-step comparison over the
surviving candidates in catalog order. -/
theorem chooseBestAux_eq_foldl {pieces : List Piece} :
    ∀ (boards : List BoardType) (best : Option Candidate),
      chooseBestAux pieces boards best =
        (candList pieces boards).foldl pickBetter best := by
  intro boards
  induction boards with
  | nil => intro best; rfl
  | cons b rest ih =>
    intro best
    rw [chooseBestAux]
    unfold candList
    rw [List.filterMap_cons]
    split
    · rename_i hm
      rw [hm]
      exact ih best
    · rename_i c' hm
      rw [hm]
      rcases best with _ | c0
      · dsimp only
        rw [List.foldl_cons]
        exact ih (some c')
      · dsimp only
        rw [List.foldl_cons]
        by_cases hlt : c'.efficiency < c0.efficiency
        · rw [if_pos hlt, show pickBetter (some c0) c' = some c' from if_pos hlt]
          exact ih (some c')
        · rw [if_neg hlt, show pickBetter (some c0) c' = some c0 from if_neg hlt]
          exact ih (some c0)

/-- Folding the comparison from an incumbent either keeps the incumbent — in
which case it was at most every scanned efficiency — or returns the first
strict minimiser of the scanned list, which strictly beat the incumbent. -/
theorem foldl_pickBetter_some :
    ∀ (l : List Candidate) (c0 c : Candidate),
      l.foldl pickBetter (some c0) = some c →
      (c = c0 ∧ ∀ d ∈ l, c0.efficiency ≤ d.efficiency) ∨
        (FirstMin l c ∧ c.efficiency < c0.efficiency) := by
  intro l
  induction l with
  | nil =>
    intro c0 c h
    cases h
    exact Or.inl ⟨rfl, by simp⟩
  | cons d rest ih =>
    intro c0 c h
    rw [List.foldl_cons] at h
    by_cases hlt : d.efficiency < c0.efficiency
    · rw [show pickBetter (some c0) d = some d from if_pos hlt] at h
      rcases ih d c h with ⟨rfl, hall⟩ | ⟨⟨pre, post, hsplit, hpre, hpost⟩, hlt2⟩
      · exact Or.inr ⟨⟨[], rest, rfl, by simp, hall⟩, hlt⟩
      · refine Or.inr ⟨⟨d :: pre, post, by rw [hsplit]; rfl, ?_, hpost⟩, by linarith⟩
        intro e he
        rcases List.mem_cons.mp he with rfl | he
        · exact hlt2
        · exact hpre e he
    · rw [show pickBetter (some c0) d = some c0 from if_neg hlt] at h
      rcases ih c0 c h with ⟨rfl, hall⟩ | ⟨⟨pre, post, hsplit, hpre, hpost⟩, hlt2⟩
      · refine Or.inl ⟨rfl, ?_⟩
        intro e he
        rcases List.mem_cons.mp he with rfl | he
        · linarith
        · exact hall e he
      · refine Or.inr ⟨⟨d :: pre, post, by rw [hsplit]; rfl, ?_, hpost⟩, hlt2⟩
        intro e he
        rcases List.mem_cons.mp he with rfl | he
        · linarith
        · exact hpre e he

/-- C7: in every iteration, among the candidates that packed at least one
piece (`candList`, in catalog order), the committed candidate is the first
strict minimiser of efficiency — efficiency at most every candidate's, and
strictly below every earlier candidate's, so equal-efficiency ties go to the
earlier catalog entry — where its efficiency is the board's unit cost divided
by the packed area summed from the packed pieces' original pre-rotation
dimensions. -/
theorem chooseBest_first_min {pieces : List Piece} {boards : List BoardType}
    {c : Candidate} (h : chooseBest pieces boards = some c) :
    FirstMin (candList pieces boards) c ∧
      c.efficiency = c.board.cost / packedArea pieces c.packed := by
  have heff : c.efficiency = c.board.cost / packedArea pieces c.packed := by
    obtain ⟨b, hb, hmk⟩ := chooseBest_some_origin h
    obtain ⟨hcb, _, _, heff, _⟩ := mkCandidate_some hmk
    rw [heff, hcb]
  have hfold : (candList pieces boards).foldl pickBetter none = some c := by
    rw [← chooseBestAux_eq_foldl]
    exact h
  rcases hcl : candList pieces boards with _ | ⟨c1, rest⟩
  · rw [hcl] at hfold
    cases hfold
  · rw [hcl, List.foldl_cons] at hfold
    rcases foldl_pickBetter_some rest c1 c hfold with ⟨rfl, hall⟩ |
      ⟨⟨pre, post, hsplit, hpre, hpost⟩, hlt⟩
    · exact ⟨⟨[], rest, rfl, by simp, hall⟩, heff⟩
    · refine ⟨⟨c1 :: pre, post, by rw [hsplit]; rfl, ?_, hpost⟩, heff⟩
      intro e he
      rcases List.mem_cons.mp he with rfl | he
      · exact hlt
      · exact hpre e he

/-- Witness for C7 on the one-piece, one-board instance. -/
theorem chooseBest_first_min_witness :
    FirstMin (candList [((1 : ℚ), (1 : ℚ))] [⟨1, 1, 1⟩])
        ⟨1, ⟨1, 1, 1⟩, ⟨1, 1, [], [⟨0, 0, 1, 1, false⟩]⟩, [0]⟩ ∧
      (⟨1, ⟨1, 1, 1⟩, ⟨1, 1, [], [⟨0, 0, 1, 1, false⟩]⟩, [0]⟩ : Candidate).efficiency =
        (⟨1, ⟨1, 1, 1⟩, ⟨1, 1, [], [⟨0, 0, 1, 1, false⟩]⟩, [0]⟩ : Candidate).board.cost /
          packedArea [((1 : ℚ), (1 : ℚ))]
            (⟨1, ⟨1, 1, 1⟩, ⟨1, 1, [], [⟨0, 0, 1, 1, false⟩]⟩, [0]⟩ : Candidate).packed :=
  @chooseBest_first_min [((1 : ℚ), (1 : ℚ))] [⟨1, 1, 1⟩]
    ⟨1, ⟨1, 1, 1⟩, ⟨1, 1, [], [⟨0, 0, 1, 1, false⟩]⟩, [0]⟩ chooseBest_unit_example

end WoodCutter
